import Mathlib

/-!
Verification of the `vp9-parser` IVF container reader.

Shallow embedding of `src/ivf.rs`: the `Ivf` container (header parsing and
validation in `Ivf::new`, metadata accessors, `Ivf::iter`) and the frame
iterator `IvfIter` (`next`, `size_hint`).

Byte sources (`R: Read + Clone` in the Rust code) are modelled as the list of
bytes remaining to be read; `read_exact` either returns the requested prefix
and advances past it, or fails after consuming what remained (the behaviour of
the default `Read::read_exact` loop on a bounded source, which reads everything
available before reporting `UnexpectedEof`). `Clone` is literal duplication of
the remaining-bytes value. Bytes are `Nat`s; a genuine byte source has all
entries below 256, but no decoding step depends on that bound.
-/

namespace Vp9

/-- A byte source: the bytes remaining at the current read position.
Models a value `r : R` with `R: Read + Clone` (e.g. `Cursor<Vec<u8>>`). -/
structure Reader where
  bytes : List Nat
deriving DecidableEq, Repr

/-- Model of `r.read_exact(&mut buf)` for a buffer of length `n`: returns the next `n`
bytes and the advanced source, or fails (`UnexpectedEof`) when fewer than `n`
bytes remain, having consumed everything that was left. -/
def Reader.readExact (r : Reader) (n : Nat) : Option (List Nat) × Reader :=
  if n ≤ r.bytes.length then (some (r.bytes.take n), ⟨r.bytes.drop n⟩)
  else (none, ⟨[]⟩)

/-- Modelled from the spec: the crate error type `Vp9Error` is declared in the
crate root (`lib.rs`), which is not among the provided sources; the spec's
error taxonomy gives `TruncatedInput` (fewer bytes available than the 32-byte
header requires, produced by the `?` conversion of the `read_exact` failure in
`Ivf::new`) and `InvalidHeader(reason)` (constructed explicitly in
`Ivf::new`). -/
inductive Vp9Error where
  | TruncatedInput : Vp9Error
  | InvalidHeader : String → Vp9Error
deriving DecidableEq, Repr

/-- Little-endian decoding: `uN::from_le_bytes` on a byte slice. -/
def fromLeBytes : List Nat → Nat
  | [] => 0
  | b :: bs => b + 256 * fromLeBytes bs

/-- Little-endian encoding of `v` into `n` bytes (used for the spec-side
description of the on-wire frame-record layout). -/
def leBytes : Nat → Nat → List Nat
  | 0, _ => []
  | n + 1, v => v % 256 :: leBytes n (v / 256)

/-- The IvF Header (struct `IvfHeader` in `src/ivf.rs`). -/
structure IvfHeader where
  signature : List Nat
  version : Nat
  length : Nat
  four_cc : List Nat
  width : Nat
  height : Nat
  frame_rate_rate : Nat
  frame_rate_scale : Nat
  frame_count : Nat
  reserved : List Nat
deriving DecidableEq, Repr

/-- IVF container (struct `Ivf<R>`): the retained reader, positioned just past
the 32-byte header, and the parsed header. -/
structure Ivf where
  reader : Reader
  header : IvfHeader
deriving DecidableEq, Repr

/-- The magic signature bytes `DKIF`. -/
def dkif : List Nat := [0x44, 0x4B, 0x49, 0x46]

/-- The codec identifier bytes `VP90`. -/
def vp90 : List Nat := [0x56, 0x50, 0x39, 0x30]

/-- The `IvfHeader { .. }` construction inside `Ivf::new`: decode the fields
of the 32-byte buffer `d` at their fixed little-endian offsets. -/
def parseHeader (d : List Nat) : IvfHeader :=
  { signature := d.take 4
    version := fromLeBytes ((d.drop 4).take 2)
    length := fromLeBytes ((d.drop 6).take 2)
    four_cc := (d.drop 8).take 4
    width := fromLeBytes ((d.drop 12).take 2)
    height := fromLeBytes ((d.drop 14).take 2)
    frame_rate_rate := fromLeBytes ((d.drop 16).take 4)
    frame_rate_scale := fromLeBytes ((d.drop 20).take 4)
    frame_count := fromLeBytes ((d.drop 24).take 4)
    reserved := (d.drop 28).take 4 }

/-- The validation tail of `Ivf::new`: check signature, version, header
length and four_cc in that order — the first failure short-circuits — and on
success build the container from the post-header reader. -/
def Ivf.checkHeader (header : IvfHeader) (reader' : Reader) : Except Vp9Error Ivf :=
  if header.signature ≠ dkif then
    .error (.InvalidHeader "invalid signature")
  else if header.version ≠ 0 then
    .error (.InvalidHeader "invalid version")
  else if header.length ≠ 32 then
    .error (.InvalidHeader "invalid length")
  else if header.four_cc ≠ vp90 then
    .error (.InvalidHeader "invalid four_cc")
  else
    .ok ⟨reader', header⟩

/-- Constructor `Ivf::new`: read exactly 32 bytes (`size_of::<IvfHeader>()`), decode the
fields at their fixed little-endian offsets (`parseHeader`), then validate
(`Ivf.checkHeader`). -/
def Ivf.new (reader : Reader) : Except Vp9Error Ivf :=
  match reader.readExact 32 with
  | (none, _) => .error .TruncatedInput
  | (some d, reader') => Ivf.checkHeader (parseHeader d) reader'

/-- Accessor `Ivf::width`. -/
def Ivf.width (ivf : Ivf) : Nat := ivf.header.width

/-- Accessor `Ivf::height`. -/
def Ivf.height (ivf : Ivf) : Nat := ivf.header.height

/-- Accessor `Ivf::frame_rate_rate`. -/
def Ivf.frame_rate_rate (ivf : Ivf) : Nat := ivf.header.frame_rate_rate

/-- Accessor `Ivf::frame_rate_scale`. -/
def Ivf.frame_rate_scale (ivf : Ivf) : Nat := ivf.header.frame_rate_scale

/-- Accessor `Ivf::frame_count`. -/
def Ivf.frame_count (ivf : Ivf) : Nat := ivf.header.frame_count

/-- Frame inside an IVF (struct `IvfFrame`). -/
structure IvfFrame where
  timestamp : Nat
  data : List Nat
deriving DecidableEq, Repr

/-- Frame iterator (struct `IvfIter<R>`): a clone of the container's reader,
the two scratch buffers, and the declared frame count captured at creation. -/
structure IvfIter where
  reader : Reader
  size_buffer : List Nat
  timestamp_buffer : List Nat
  frame_count : Nat
deriving DecidableEq, Repr

/-- Method `Ivf::iter`: clone the retained reader (leaving the container untouched),
zero the scratch buffers, and capture the declared frame count. -/
def Ivf.iter (ivf : Ivf) : IvfIter :=
  { reader := ivf.reader
    size_buffer := List.replicate 4 0
    timestamp_buffer := List.replicate 8 0
    frame_count := ivf.frame_count }

/-- Iterator method `<IvfIter as Iterator>::next`: read the 4-byte size, the 8-byte timestamp,
then `size` payload bytes; any failed read yields `none`. The Rust method
mutates `self`, so the result carries the iterator's post-call state (the
scratch buffers keep their previous contents on a failed read, where Rust
leaves them unspecified). -/
def IvfIter.next (it : IvfIter) : Option IvfFrame × IvfIter :=
  match it.reader.readExact 4 with
  | (none, r) => (none, { it with reader := r })
  | (some sb, r1) =>
    match r1.readExact 8 with
    | (none, r) => (none, { it with reader := r, size_buffer := sb })
    | (some tb, r2) =>
      let size := fromLeBytes sb
      let timestamp := fromLeBytes tb
      match r2.readExact size with
      | (none, r) =>
        (none, { it with reader := r, size_buffer := sb, timestamp_buffer := tb })
      | (some data, r3) =>
        (some ⟨timestamp, data⟩,
          { it with reader := r3, size_buffer := sb, timestamp_buffer := tb })

/-- Iterator method `<IvfIter as Iterator>::size_hint`. -/
def IvfIter.size_hint (it : IvfIter) : Nat × Option Nat :=
  (0, some it.frame_count)

/-- Advance the iterator `n` times (discarding the items): `n` calls to
`next`. -/
def IvfIter.stepN : Nat → IvfIter → IvfIter
  | 0, it => it
  | n + 1, it => IvfIter.stepN n (it.next).2

/-- The list of items the iterator yields before first returning `None`,
computed with explicit fuel (each emitted frame consumes at least 12 source
bytes, so `bytes.length + 1` fuel is never exhausted first). -/
def IvfIter.framesAux : Nat → IvfIter → List IvfFrame
  | 0, _ => []
  | fuel + 1, it =>
    match it.next with
    | (none, _) => []
    | (some f, it') => f :: IvfIter.framesAux fuel it'

/-- The full sequence of frames the iterator yields. -/
def IvfIter.frames (it : IvfIter) : List IvfFrame :=
  IvfIter.framesAux (it.reader.bytes.length + 1) it

/-- Spec-side description of one frame record of the on-wire layout:
a timestamp and an opaque payload. -/
structure FrameRec where
  timestamp : Nat
  payload : List Nat
deriving DecidableEq, Repr

/-- A frame record fits the wire format: the payload length fits the 4-byte
size field and the timestamp fits the 8-byte field. -/
def FrameRec.wf (f : FrameRec) : Prop :=
  f.payload.length < 256 ^ 4 ∧ f.timestamp < 256 ^ 8

instance (f : FrameRec) : Decidable f.wf := by
  unfold FrameRec.wf; infer_instance

/-- The frame a record should decode to. -/
def FrameRec.toFrame (f : FrameRec) : IvfFrame :=
  ⟨f.timestamp, f.payload⟩

/-- On-wire encoding of one frame record: 4-byte little-endian size, 8-byte
little-endian timestamp, then the payload. -/
def encodeRecord (f : FrameRec) : List Nat :=
  leBytes 4 f.payload.length ++ leBytes 8 f.timestamp ++ f.payload

/-- On-wire encoding of a sequence of frame records. -/
def encodeRecords : List FrameRec → List Nat
  | [] => []
  | f :: fs => encodeRecord f ++ encodeRecords fs

/-- A byte tail too short to supply one complete frame record: it runs out
during the 4-byte size read, the 8-byte timestamp read, or the payload read of
the size its own first 4 bytes declare. -/
def incompleteTail (t : List Nat) : Prop :=
  t.length < 12 + fromLeBytes (t.take 4)

instance (t : List Nat) : Decidable (incompleteTail t) := by
  unfold incompleteTail; infer_instance

/-- One observable operation on an opened container: create a frame sequence
(`Ivf::iter`), demand the next item of the `i`-th sequence created so far
(`Iterator::next`), or call one of the five `&self` metadata accessors. -/
inductive ContainerOp where
  | mkIter : ContainerOp
  | stepIter : Nat → ContainerOp
  | getWidth : ContainerOp
  | getHeight : ContainerOp
  | getFrameRateRate : ContainerOp
  | getFrameRateScale : ContainerOp
  | getFrameCount : ContainerOp
deriving DecidableEq, Repr

/-- A live frame sequence: its iterator state and the frames it has emitted
so far, in order. -/
structure IterSt where
  it : IvfIter
  emitted : List IvfFrame
deriving DecidableEq, Repr

/-- An opened container together with the frame sequences obtained from it. -/
structure Sys where
  ivf : Ivf
  iters : List IterSt
deriving DecidableEq, Repr

/-- Apply one operation. `mkIter` appends a fresh `Ivf::iter` (which clones
the retained reader from `&self`); `stepIter i` calls `next` on the `i`-th
sequence, mutating only that sequence; the five accessors read `&self` and
cannot change any state. -/
def Sys.applyOp (s : Sys) : ContainerOp → Sys
  | .mkIter => { s with iters := s.iters ++ [⟨s.ivf.iter, []⟩] }
  | .stepIter i =>
    match s.iters[i]? with
    | none => s
    | some ⟨it, em⟩ =>
      match it.next with
      | (none, it') => { s with iters := s.iters.set i ⟨it', em⟩ }
      | (some f, it') => { s with iters := s.iters.set i ⟨it', em ++ [f]⟩ }
  | .getWidth => s
  | .getHeight => s
  | .getFrameRateRate => s
  | .getFrameRateScale => s
  | .getFrameCount => s

/-- Run a list of operations left to right. -/
def Sys.run (s : Sys) : List ContainerOp → Sys
  | [] => s
  | op :: ops => Sys.run (s.applyOp op) ops

/-- The 32-byte example header from the spec:
width 176, height 144, rate 30000, scale 1000, frame count 29. -/
def exampleHeader : List Nat :=
  [0x44, 0x4B, 0x49, 0x46, 0x00, 0x00, 0x20, 0x00,
   0x56, 0x50, 0x39, 0x30, 0xB0, 0x00, 0x90, 0x00,
   0x30, 0x75, 0x00, 0x00, 0xE8, 0x03, 0x00, 0x00,
   0x1D, 0x00, 0x00, 0x00, 0x00, 0x00, 0x00, 0x00]

/-- A concrete parsed header matching `exampleHeader` (used by witnesses). -/
def wHeader : IvfHeader :=
  ⟨dkif, 0, 32, vp90, 176, 144, 30000, 1000, 29, [0, 0, 0, 0]⟩

/-- Two concrete frame records (used by witnesses). -/
def wRecs : List FrameRec := [⟨100, [1, 2, 3]⟩, ⟨101, []⟩]

/-- The container obtained by opening `exampleHeader ++ encodeRecords wRecs`
(used by witnesses). -/
def wIvf : Ivf := ⟨⟨encodeRecords wRecs⟩, wHeader⟩

/-- A truncated trailing record: it declares payload size 5 but supplies only
2 payload bytes (used by witnesses). -/
def wTail : List Nat := leBytes 4 5 ++ leBytes 8 7 ++ [1, 2]

/-- The container obtained by opening the example header followed by `wRecs`
and the truncated trailing record `wTail` (used by witnesses). -/
def wIvf2 : Ivf := ⟨⟨encodeRecords wRecs ++ wTail⟩, wHeader⟩

/-- A concrete operation script: create one frame sequence, then demand one
item from it (used by witnesses). -/
def wOps : List ContainerOp := [.mkIter, .stepIter 0]

/-- The single sequence state reached by running `wOps` from `wIvf`: it has
emitted the first record and sits before the second (used by witnesses). -/
def wSt : IterSt :=
  ⟨⟨⟨[0, 0, 0, 0, 101, 0, 0, 0, 0, 0, 0, 0]⟩, [3, 0, 0, 0],
    [100, 0, 0, 0, 0, 0, 0, 0], 29⟩, [⟨100, [1, 2, 3]⟩]⟩

/-- An iterator over the `wRecs` bytes capturing frame count 29
(used by witnesses). -/
def wItA : IvfIter :=
  ⟨⟨encodeRecords wRecs⟩, List.replicate 4 0, List.replicate 8 0, 29⟩

/-- An iterator over the same bytes as `wItA` but capturing a wildly
different frame count (used by witnesses). -/
def wItB : IvfIter :=
  ⟨⟨encodeRecords wRecs⟩, List.replicate 4 0, List.replicate 8 0, 999⟩

example :
    (Ivf.new ⟨exampleHeader⟩).map Ivf.width = .ok 176 := rfl

example :
    (Ivf.new ⟨exampleHeader⟩).map Ivf.frame_count = .ok 29 := rfl

example : Ivf.new ⟨[1, 2, 3]⟩ = .error .TruncatedInput := rfl

example :
    IvfIter.frames ⟨⟨encodeRecords [⟨7, [9, 9]⟩, ⟨8, []⟩]⟩, [], [], 5⟩ =
      [⟨7, [9, 9]⟩, ⟨8, []⟩] := by decide

/-! ## Byte-level lemmas -/

theorem length_leBytes (n v : Nat) : (leBytes n v).length = n := by
  induction n generalizing v with
  | zero => rfl
  | succ k ih => simp [leBytes, ih]

theorem fromLeBytes_leBytes (n v : Nat) (h : v < 256 ^ n) :
    fromLeBytes (leBytes n v) = v := by
  induction n generalizing v with
  | zero =>
    simp only [pow_zero, Nat.lt_one_iff] at h
    subst h
    rfl
  | succ k ih =>
    have hdiv : v / 256 < 256 ^ k := by
      apply Nat.div_lt_of_lt_mul
      calc v < 256 ^ (k + 1) := h
        _ = 256 * 256 ^ k := by ring
    simp only [leBytes, fromLeBytes, ih _ hdiv]
    omega

/-! ## `read_exact` lemmas -/

theorem readExact_append (l r : List Nat) (n : Nat) (h : l.length = n) :
    Reader.readExact ⟨l ++ r⟩ n = (some l, ⟨r⟩) := by
  subst h
  simp [Reader.readExact, List.take_left, List.drop_left]

theorem readExact_short (r : Reader) (n : Nat) (h : r.bytes.length < n) :
    r.readExact n = (none, ⟨[]⟩) := by
  unfold Reader.readExact
  rw [if_neg (by omega)]

theorem readExact_none (r : Reader) (n : Nat) (r' : Reader)
    (h : r.readExact n = (none, r')) : r' = ⟨[]⟩ := by
  unfold Reader.readExact at h
  split at h
  · exact absurd h (by simp)
  · injection h with h1 h2
    exact h2.symm

theorem readExact_some (r : Reader) (n : Nat) (l : List Nat) (r' : Reader)
    (h : r.readExact n = (some l, r')) :
    l = r.bytes.take n ∧ r' = ⟨r.bytes.drop n⟩ ∧ n ≤ r.bytes.length := by
  unfold Reader.readExact at h
  split at h
  case isTrue hle =>
    injection h with h1 h2
    injection h1 with h1
    exact ⟨h1.symm, h2.symm, hle⟩
  case isFalse =>
    exact absurd h (by simp)

/-! ## `next` lemmas -/

theorem next_encode (f : FrameRec) (hf : f.wf) (rest : List Nat)
    (sb tb : List Nat) (c : Nat) :
    IvfIter.next ⟨⟨encodeRecord f ++ rest⟩, sb, tb, c⟩ =
      (some f.toFrame,
        ⟨⟨rest⟩, leBytes 4 f.payload.length, leBytes 8 f.timestamp, c⟩) := by
  obtain ⟨hlen, hts⟩ := hf
  have e1 : encodeRecord f ++ rest =
      leBytes 4 f.payload.length ++
        (leBytes 8 f.timestamp ++ (f.payload ++ rest)) := by
    simp [encodeRecord]
  have h1 : Reader.readExact ⟨encodeRecord f ++ rest⟩ 4 =
      (some (leBytes 4 f.payload.length),
       ⟨leBytes 8 f.timestamp ++ (f.payload ++ rest)⟩) := by
    rw [e1]
    exact readExact_append _ _ _ (length_leBytes 4 _)
  have h2 : Reader.readExact ⟨leBytes 8 f.timestamp ++ (f.payload ++ rest)⟩ 8 =
      (some (leBytes 8 f.timestamp), ⟨f.payload ++ rest⟩) :=
    readExact_append _ _ _ (length_leBytes 8 _)
  have h3 : Reader.readExact ⟨f.payload ++ rest⟩
      (fromLeBytes (leBytes 4 f.payload.length)) = (some f.payload, ⟨rest⟩) := by
    rw [fromLeBytes_leBytes 4 _ hlen]
    exact readExact_append _ _ _ rfl
  simp only [IvfIter.next, h1, h2, h3]
  simp [FrameRec.toFrame, fromLeBytes_leBytes 8 _ hts]

theorem next_incomplete (it : IvfIter) (h : incompleteTail it.reader.bytes) :
    (it.next).1 = none := by
  unfold incompleteTail at h
  rcases Nat.lt_or_ge it.reader.bytes.length 4 with h4 | h4
  · simp only [IvfIter.next, readExact_short _ _ h4]
  · have h1 : it.reader.readExact 4 =
        (some (it.reader.bytes.take 4), ⟨it.reader.bytes.drop 4⟩) := by
      unfold Reader.readExact
      rw [if_pos h4]
    rcases Nat.lt_or_ge it.reader.bytes.length 12 with h12 | h12
    · have h2 : Reader.readExact ⟨it.reader.bytes.drop 4⟩ 8 = (none, ⟨[]⟩) :=
        readExact_short _ _ (by simp only [List.length_drop]; omega)
      simp only [IvfIter.next, h1, h2]
    · have h2 : Reader.readExact ⟨it.reader.bytes.drop 4⟩ 8 =
          (some ((it.reader.bytes.drop 4).take 8),
           ⟨(it.reader.bytes.drop 4).drop 8⟩) := by
        unfold Reader.readExact
        rw [if_pos (by simp only [List.length_drop]; omega)]
      have h3 : Reader.readExact ⟨(it.reader.bytes.drop 4).drop 8⟩
          (fromLeBytes (it.reader.bytes.take 4)) = (none, ⟨[]⟩) :=
        readExact_short _ _ (by simp only [List.length_drop]; omega)
      simp only [IvfIter.next, h1, h2, h3]

theorem next_none_bytes (it : IvfIter) (h : (it.next).1 = none) :
    ((it.next).2).reader.bytes = [] := by
  rcases hn : it.next with ⟨o, it'⟩
  rw [hn] at h
  have ho : o = none := h
  subst ho
  unfold IvfIter.next at hn
  split at hn
  case h_1 r heq =>
    injection hn with h1 h2
    rw [readExact_none _ _ _ heq] at h2
    rw [← h2]
  case h_2 sb r1 heq4 =>
    split at hn
    case h_1 r heq =>
      injection hn with h1 h2
      rw [readExact_none _ _ _ heq] at h2
      rw [← h2]
    case h_2 tb r2 heq8 =>
      dsimp only at hn
      split at hn
      case h_1 r heq =>
        injection hn with h1 h2
        rw [readExact_none _ _ _ heq] at h2
        rw [← h2]
      case h_2 data r3 heq =>
        injection hn with h1 h2
        exact absurd h1 (by simp)

theorem next_some_lt (it : IvfIter) (f : IvfFrame) (it' : IvfIter)
    (h : it.next = (some f, it')) :
    it'.reader.bytes.length < it.reader.bytes.length := by
  unfold IvfIter.next at h
  split at h
  case h_1 r heq =>
    exact absurd h (by simp)
  case h_2 sb r1 heq4 =>
    split at h
    case h_1 r heq =>
      exact absurd h (by simp)
    case h_2 tb r2 heq8 =>
      dsimp only at h
      split at h
      case h_1 r heq =>
        exact absurd h (by simp)
      case h_2 data r3 heq =>
        injection h with h1 h2
        obtain ⟨-, hr1, hle4⟩ := readExact_some _ _ _ _ heq4
        subst hr1
        obtain ⟨-, hr2, hle8⟩ := readExact_some _ _ _ _ heq8
        subst hr2
        obtain ⟨-, hr3, hlep⟩ := readExact_some _ _ _ _ heq
        rw [← h2, hr3]
        simp only [List.length_drop] at *
        omega

theorem next_fst_nil (it : IvfIter) (h : it.reader.bytes = []) :
    (it.next).1 = none := by
  have h4 : it.reader.bytes.length < 4 := by rw [h]; simp
  simp only [IvfIter.next, readExact_short _ _ h4]

theorem next_nil_self (it : IvfIter) (h : it.reader.bytes = []) :
    it.next = (none, it) := by
  have h4 : it.reader.bytes.length < 4 := by rw [h]; simp
  simp only [IvfIter.next, readExact_short _ _ h4]
  have : (⟨[]⟩ : Reader) = it.reader := (congrArg Reader.mk h).symm
  rw [this]

theorem stepN_nil (n : Nat) (it : IvfIter) (h : it.reader.bytes = []) :
    IvfIter.stepN n it = it := by
  induction n generalizing it with
  | zero => rfl
  | succ k ih =>
    show IvfIter.stepN k (it.next).2 = it
    rw [next_nil_self it h]
    exact ih it h

/-! ## `frames` lemmas -/

theorem framesAux_fuel (f₁ : Nat) : ∀ (f₂ : Nat) (it : IvfIter),
    it.reader.bytes.length < f₁ → it.reader.bytes.length < f₂ →
    IvfIter.framesAux f₁ it = IvfIter.framesAux f₂ it := by
  induction f₁ with
  | zero =>
    intro f₂ it h1 h2
    omega
  | succ g ih =>
    intro f₂ it h1 h2
    cases f₂ with
    | zero => omega
    | succ g' =>
      simp only [IvfIter.framesAux]
      rcases hn : it.next with ⟨o, it'⟩
      cases o with
      | none => rfl
      | some f =>
        have hlt := next_some_lt it f it' hn
        show f :: IvfIter.framesAux g it' = f :: IvfIter.framesAux g' it'
        rw [ih g' it' (by omega) (by omega)]

theorem frames_next_some (it it' : IvfIter) (f : IvfFrame)
    (h : it.next = (some f, it')) :
    it.frames = f :: it'.frames := by
  have hlt := next_some_lt it f it' h
  have step : IvfIter.framesAux (it.reader.bytes.length + 1) it =
      f :: IvfIter.framesAux it.reader.bytes.length it' := by
    simp only [IvfIter.framesAux]
    rw [h]
  unfold IvfIter.frames
  rw [step]
  have := framesAux_fuel it.reader.bytes.length (it'.reader.bytes.length + 1) it'
    hlt (Nat.lt_succ_self _)
  rw [this]

theorem frames_next_none (it : IvfIter) (h : (it.next).1 = none) :
    it.frames = [] := by
  unfold IvfIter.frames
  simp only [IvfIter.framesAux]
  rcases hn : it.next with ⟨o, x⟩
  rw [hn] at h
  have ho : o = none := h
  subst ho
  rfl

theorem frames_nil (it : IvfIter) (h : it.reader.bytes = []) :
    it.frames = [] :=
  frames_next_none it (next_fst_nil it h)

/-! ## Frames of an encoded record sequence -/

theorem length_encodeRecord (f : FrameRec) :
    (encodeRecord f).length = 12 + f.payload.length := by
  simp [encodeRecord, length_leBytes]
  omega

theorem length_encodeRecords_ge (fs : List FrameRec) :
    fs.length ≤ (encodeRecords fs).length := by
  induction fs with
  | nil => simp [encodeRecords]
  | cons f fs ih =>
    simp only [encodeRecords, List.length_append, List.length_cons,
      length_encodeRecord]
    omega

theorem framesAux_encode (fs : List FrameRec) (t : List Nat)
    (hwf : ∀ f ∈ fs, f.wf) (ht : incompleteTail t) :
    ∀ (fuel : Nat) (sb tb : List Nat) (c : Nat), fs.length < fuel →
      IvfIter.framesAux fuel ⟨⟨encodeRecords fs ++ t⟩, sb, tb, c⟩ =
        fs.map FrameRec.toFrame := by
  induction fs with
  | nil =>
    intro fuel sb tb c hfuel
    cases fuel with
    | zero => omega
    | succ g =>
      simp only [IvfIter.framesAux]
      have hnone : (IvfIter.next ⟨⟨encodeRecords [] ++ t⟩, sb, tb, c⟩).1 = none := by
        apply next_incomplete
        simpa [encodeRecords] using ht
      rcases hn : IvfIter.next ⟨⟨encodeRecords [] ++ t⟩, sb, tb, c⟩ with ⟨o, x⟩
      rw [hn] at hnone
      have ho : o = none := hnone
      subst ho
      rfl
  | cons f fs ih =>
    intro fuel sb tb c hfuel
    cases fuel with
    | zero => omega
    | succ g =>
      have e1 : encodeRecords (f :: fs) ++ t =
          encodeRecord f ++ (encodeRecords fs ++ t) := by
        simp [encodeRecords]
      have hn : IvfIter.next ⟨⟨encodeRecords (f :: fs) ++ t⟩, sb, tb, c⟩ =
          (some f.toFrame,
            ⟨⟨encodeRecords fs ++ t⟩, leBytes 4 f.payload.length,
             leBytes 8 f.timestamp, c⟩) := by
        rw [e1]
        exact next_encode f (hwf f (by simp)) _ sb tb c
      simp only [IvfIter.framesAux]
      rw [hn]
      simp only [List.map_cons, List.cons.injEq, true_and]
      exact ih (fun g hg => hwf g (by simp [hg])) g _ _ c (by simpa using hfuel)

theorem frames_encode (fs : List FrameRec) (t : List Nat)
    (hwf : ∀ f ∈ fs, f.wf) (ht : incompleteTail t) (sb tb : List Nat) (c : Nat) :
    IvfIter.frames ⟨⟨encodeRecords fs ++ t⟩, sb, tb, c⟩ =
      fs.map FrameRec.toFrame := by
  unfold IvfIter.frames
  apply framesAux_encode fs t hwf ht
  have h1 := length_encodeRecords_ge fs
  simp only [List.length_append]
  omega

theorem stepN_encode (fs : List FrameRec) (t : List Nat)
    (hwf : ∀ f ∈ fs, f.wf) :
    ∀ (sb tb : List Nat) (c : Nat),
      (IvfIter.stepN fs.length ⟨⟨encodeRecords fs ++ t⟩, sb, tb, c⟩).reader.bytes
        = t := by
  induction fs with
  | nil => intro sb tb c; simp [IvfIter.stepN, encodeRecords]
  | cons f fs ih =>
    intro sb tb c
    have e1 : encodeRecords (f :: fs) ++ t =
        encodeRecord f ++ (encodeRecords fs ++ t) := by
      simp [encodeRecords]
    show (IvfIter.stepN fs.length
      (IvfIter.next ⟨⟨encodeRecords (f :: fs) ++ t⟩, sb, tb, c⟩).2).reader.bytes = t
    rw [e1, next_encode f (hwf f (by simp)) _ sb tb c]
    exact ih (fun g hg => hwf g (by simp [hg])) _ _ c

/-! ## `frames` depends only on the reader -/

theorem next_reader_eq (a b : IvfIter) (h : a.reader = b.reader) :
    (a.next).1 = (b.next).1 ∧ ((a.next).2).reader = ((b.next).2).reader := by
  unfold IvfIter.next
  rw [h]
  constructor <;>
  · split
    · rfl
    · try dsimp only
      split
      · rfl
      · try dsimp only
        split
        · rfl
        · rfl

theorem framesAux_reader_eq (fuel : Nat) :
    ∀ (a b : IvfIter), a.reader = b.reader →
      IvfIter.framesAux fuel a = IvfIter.framesAux fuel b := by
  induction fuel with
  | zero => intro a b h; rfl
  | succ g ih =>
    intro a b h
    obtain ⟨h1, h2⟩ := next_reader_eq a b h
    simp only [IvfIter.framesAux]
    rcases hna : a.next with ⟨oa, a'⟩
    rcases hnb : b.next with ⟨ob, b'⟩
    rw [hna, hnb] at h1 h2
    simp only at h1 h2
    subst h1
    cases oa with
    | none => rfl
    | some f =>
      show f :: IvfIter.framesAux g a' = f :: IvfIter.framesAux g b'
      rw [ih a' b' h2]

theorem frames_reader_eq (a b : IvfIter) (h : a.reader = b.reader) :
    a.frames = b.frames := by
  unfold IvfIter.frames
  rw [h]
  exact framesAux_reader_eq _ a b h

/-! ## The container never changes -/

theorem applyOp_ivf (s : Sys) (op : ContainerOp) : (s.applyOp op).ivf = s.ivf := by
  cases op
  case stepIter i =>
    simp only [Sys.applyOp]
    split
    · rfl
    · split <;> rfl
  all_goals rfl

theorem run_preserves (ivf : Ivf) (ops : List ContainerOp) :
    ∀ s : Sys, s.ivf = ivf →
      (∀ st ∈ s.iters, st.emitted ++ st.it.frames = (ivf.iter).frames) →
      (Sys.run s ops).ivf = ivf ∧
      ∀ st ∈ (Sys.run s ops).iters,
        st.emitted ++ st.it.frames = (ivf.iter).frames := by
  induction ops with
  | nil => intro s h1 h2; exact ⟨h1, h2⟩
  | cons op ops ih =>
    intro s h1 h2
    show (Sys.run (s.applyOp op) ops).ivf = ivf ∧ _
    apply ih
    · rw [applyOp_ivf, h1]
    · cases op with
      | mkIter =>
        intro st hst
        simp only [Sys.applyOp] at hst
        rcases List.mem_append.mp hst with hmem | hmem
        · exact h2 st hmem
        · simp only [List.mem_singleton] at hmem
          subst hmem
          simp [h1]
      | stepIter i =>
        intro st hst
        simp only [Sys.applyOp] at hst
        split at hst
        · exact h2 st hst
        · rename_i it em hg
          split at hst
          · rename_i it' hn
            have hfst : (it.next).1 = none := by rw [hn]
            have hmem0 : (⟨it, em⟩ : IterSt) ∈ s.iters := List.getElem?_mem hg
            have hinv : em ++ it.frames = (ivf.iter).frames := h2 _ hmem0
            have hold : it.frames = [] := frames_next_none it hfst
            have hnew : it'.frames = [] := by
              apply frames_nil
              have hb := next_none_bytes it hfst
              rw [hn] at hb
              exact hb
            rcases List.mem_or_eq_of_mem_set hst with hmem | heq
            · exact h2 st hmem
            · subst heq
              simp only [hnew, List.append_nil]
              rw [← hinv, hold, List.append_nil]
          · rename_i f it' hn
            have hmem0 : (⟨it, em⟩ : IterSt) ∈ s.iters := List.getElem?_mem hg
            have hinv : em ++ it.frames = (ivf.iter).frames := h2 _ hmem0
            rcases List.mem_or_eq_of_mem_set hst with hmem | heq
            · exact h2 st hmem
            · subst heq
              have hstep : it.frames = f :: it'.frames :=
                frames_next_some it it' f hn
              simp only
              rw [← hinv, hstep]
              simp
      | getWidth => exact h2
      | getHeight => exact h2
      | getFrameRateRate => exact h2
      | getFrameRateScale => exact h2
      | getFrameCount => exact h2

/-! ## Header parsing lemmas -/

theorem new_append (d rest : List Nat) (hd : d.length = 32) :
    Ivf.new ⟨d ++ rest⟩ = Ivf.checkHeader (parseHeader d) ⟨rest⟩ := by
  simp only [Ivf.new, readExact_append d rest 32 hd]

/-! ## The claims -/

/-- C1: for every byte source whose first 32 bytes form a header with
signature `DKIF`, version 0, header-length 32 and codec identifier `VP90`,
`Ivf::new` succeeds and `width`, `height`, `frame_rate_rate`,
`frame_rate_scale` and `frame_count` return exactly the little-endian values
at offsets 12, 14, 16, 20 and 24; in particular the spec's 32-byte example
header parses with width 176, height 144, frame-rate-rate 30000,
frame-rate-scale 1000 and frame-count 29. -/
theorem C1_open_decodes_header :
    (∀ (d rest : List Nat), d.length = 32 →
      d.take 4 = dkif →
      fromLeBytes ((d.drop 4).take 2) = 0 →
      fromLeBytes ((d.drop 6).take 2) = 32 →
      (d.drop 8).take 4 = vp90 →
      ∃ ivf : Ivf, Ivf.new ⟨d ++ rest⟩ = .ok ivf ∧
        ivf.width = fromLeBytes ((d.drop 12).take 2) ∧
        ivf.height = fromLeBytes ((d.drop 14).take 2) ∧
        ivf.frame_rate_rate = fromLeBytes ((d.drop 16).take 4) ∧
        ivf.frame_rate_scale = fromLeBytes ((d.drop 20).take 4) ∧
        ivf.frame_count = fromLeBytes ((d.drop 24).take 4)) ∧
    ((Ivf.new ⟨exampleHeader⟩).map Ivf.width = .ok 176 ∧
      (Ivf.new ⟨exampleHeader⟩).map Ivf.height = .ok 144 ∧
      (Ivf.new ⟨exampleHeader⟩).map Ivf.frame_rate_rate = .ok 30000 ∧
      (Ivf.new ⟨exampleHeader⟩).map Ivf.frame_rate_scale = .ok 1000 ∧
      (Ivf.new ⟨exampleHeader⟩).map Ivf.frame_count = .ok 29) := by
  constructor
  · intro d rest hd hsig hver hlen hcc
    refine ⟨⟨⟨rest⟩, parseHeader d⟩, ?_, rfl, rfl, rfl, rfl, rfl⟩
    rw [new_append d rest hd]
    unfold Ivf.checkHeader
    rw [if_neg (by simp [parseHeader, hsig]), if_neg (by simp [parseHeader, hver]),
      if_neg (by simp [parseHeader, hlen]), if_neg (by simp [parseHeader, hcc])]
  · exact ⟨rfl, rfl, rfl, rfl, rfl⟩

/-- Witness for C1: the spec's example header, followed by nothing,
instantiates the universal part. -/
theorem C1_open_decodes_header_witness :
    ∃ ivf : Ivf, Ivf.new ⟨exampleHeader ++ []⟩ = .ok ivf ∧
      ivf.width = fromLeBytes ((exampleHeader.drop 12).take 2) ∧
      ivf.height = fromLeBytes ((exampleHeader.drop 14).take 2) ∧
      ivf.frame_rate_rate = fromLeBytes ((exampleHeader.drop 16).take 4) ∧
      ivf.frame_rate_scale = fromLeBytes ((exampleHeader.drop 20).take 4) ∧
      ivf.frame_count = fromLeBytes ((exampleHeader.drop 24).take 4) :=
  C1_open_decodes_header.1 exampleHeader [] (by decide) (by decide) (by decide)
    (by decide) (by decide)

/-- C2: the four header checks run in the order signature, version,
header-length, codec identifier; the first failing check short-circuits the
rest (the signature clause assumes nothing about the later fields), and each
failure carries that check's distinct reason. -/
theorem C2_validation_order :
    (∀ (d rest : List Nat), d.length = 32 →
      d.take 4 ≠ dkif →
      Ivf.new ⟨d ++ rest⟩ = .error (.InvalidHeader "invalid signature")) ∧
    (∀ (d rest : List Nat), d.length = 32 →
      d.take 4 = dkif →
      fromLeBytes ((d.drop 4).take 2) ≠ 0 →
      Ivf.new ⟨d ++ rest⟩ = .error (.InvalidHeader "invalid version")) ∧
    (∀ (d rest : List Nat), d.length = 32 →
      d.take 4 = dkif →
      fromLeBytes ((d.drop 4).take 2) = 0 →
      fromLeBytes ((d.drop 6).take 2) ≠ 32 →
      Ivf.new ⟨d ++ rest⟩ = .error (.InvalidHeader "invalid length")) ∧
    (∀ (d rest : List Nat), d.length = 32 →
      d.take 4 = dkif →
      fromLeBytes ((d.drop 4).take 2) = 0 →
      fromLeBytes ((d.drop 6).take 2) = 32 →
      (d.drop 8).take 4 ≠ vp90 →
      Ivf.new ⟨d ++ rest⟩ = .error (.InvalidHeader "invalid four_cc")) := by
  refine ⟨?_, ?_, ?_, ?_⟩
  · intro d rest hd hsig
    rw [new_append d rest hd]
    unfold Ivf.checkHeader
    rw [if_pos (by simpa [parseHeader] using hsig)]
  · intro d rest hd hsig hver
    rw [new_append d rest hd]
    unfold Ivf.checkHeader
    rw [if_neg (by simp [parseHeader, hsig]),
      if_pos (by simpa [parseHeader] using hver)]
  · intro d rest hd hsig hver hlen
    rw [new_append d rest hd]
    unfold Ivf.checkHeader
    rw [if_neg (by simp [parseHeader, hsig]), if_neg (by simp [parseHeader, hver]),
      if_pos (by simpa [parseHeader] using hlen)]
  · intro d rest hd hsig hver hlen hcc
    rw [new_append d rest hd]
    unfold Ivf.checkHeader
    rw [if_neg (by simp [parseHeader, hsig]), if_neg (by simp [parseHeader, hver]),
      if_neg (by simp [parseHeader, hlen]),
      if_pos (by simpa [parseHeader] using hcc)]

/-- Witness for C2: the example header with, in turn, exactly one of the
signature, version, length and four_cc fields corrupted. -/
theorem C2_validation_order_witness :
    Ivf.new ⟨[0x45, 0x4B, 0x49, 0x46] ++ exampleHeader.drop 4⟩ =
      .error (.InvalidHeader "invalid signature") ∧
    Ivf.new ⟨exampleHeader.take 4 ++ ([1, 0] ++ exampleHeader.drop 6)⟩ =
      .error (.InvalidHeader "invalid version") ∧
    Ivf.new ⟨exampleHeader.take 6 ++ ([33, 0] ++ exampleHeader.drop 8)⟩ =
      .error (.InvalidHeader "invalid length") ∧
    Ivf.new ⟨exampleHeader.take 8 ++ ([0x56, 0x50, 0x38, 0x30] ++ exampleHeader.drop 12)⟩ =
      .error (.InvalidHeader "invalid four_cc") :=
  by
  refine ⟨?_, ?_, ?_, ?_⟩
  · exact C2_validation_order.1
      ([0x45, 0x4B, 0x49, 0x46] ++ exampleHeader.drop 4) [] (by decide) (by decide)
  · exact C2_validation_order.2.1
      (exampleHeader.take 4 ++ ([1, 0] ++ exampleHeader.drop 6)) []
      (by decide) (by decide) (by decide)
  · exact C2_validation_order.2.2.1
      (exampleHeader.take 6 ++ ([33, 0] ++ exampleHeader.drop 8)) []
      (by decide) (by decide) (by decide) (by decide)
  · exact C2_validation_order.2.2.2
      (exampleHeader.take 8 ++ ([0x56, 0x50, 0x38, 0x30] ++ exampleHeader.drop 12)) []
      (by decide) (by decide) (by decide) (by decide) (by decide)

/-- C3: for every input containing fewer than 32 bytes, `Ivf::new` demands
the 32 header bytes, the read fails, and construction fails with
`TruncatedInput`. -/
theorem C3_short_input_truncated (r : Reader) (h : r.bytes.length < 32) :
    Ivf.new r = .error .TruncatedInput := by
  simp only [Ivf.new, readExact_short r 32 h]

/-- Witness for C3: a 3-byte input. -/
theorem C3_short_input_truncated_witness :
    (⟨[1, 2, 3]⟩ : Reader).bytes.length < 32 ∧
    Ivf.new ⟨[1, 2, 3]⟩ = .error .TruncatedInput :=
  ⟨by decide, C3_short_input_truncated ⟨[1, 2, 3]⟩ (by decide)⟩

/-- C4: for every successfully opened container whose remaining bytes are
exactly the encoding of the frame records `fs` (4-byte little-endian size,
8-byte little-endian timestamp, then the payload, for each record), the
iterator yields exactly those frames, with the decoded timestamps and exact
payloads, in file order — and after them the next demand signals
end-of-sequence. -/
theorem C4_frames_roundtrip (r : Reader) (ivf : Ivf) (fs : List FrameRec)
    (_hok : Ivf.new r = .ok ivf) (hwf : ∀ f ∈ fs, f.wf)
    (hbytes : ivf.reader.bytes = encodeRecords fs) :
    (ivf.iter).frames = fs.map FrameRec.toFrame ∧
    ((IvfIter.stepN fs.length (ivf.iter)).next).1 = none := by
  have hreader : ivf.reader = ⟨encodeRecords fs⟩ := congrArg Reader.mk hbytes
  have h0 : ivf.iter =
      ⟨⟨encodeRecords fs ++ []⟩, List.replicate 4 0, List.replicate 8 0,
        ivf.frame_count⟩ := by
    unfold Ivf.iter
    rw [hreader]
    simp
  constructor
  · rw [h0]
    exact frames_encode fs [] hwf (by decide) _ _ _
  · rw [h0]
    apply next_incomplete
    rw [stepN_encode fs [] hwf _ _ _]
    decide

/-- Witness for C4: the example header followed by two encoded records. -/
theorem C4_frames_roundtrip_witness :
    Ivf.new ⟨exampleHeader ++ encodeRecords wRecs⟩ = .ok wIvf ∧
    (∀ f ∈ wRecs, f.wf) ∧
    wIvf.reader.bytes = encodeRecords wRecs ∧
    ((wIvf.iter).frames = wRecs.map FrameRec.toFrame ∧
      ((IvfIter.stepN wRecs.length (wIvf.iter)).next).1 = none) :=
  ⟨rfl, by decide, rfl,
   C4_frames_roundtrip ⟨exampleHeader ++ encodeRecords wRecs⟩ wIvf wRecs rfl
     (by decide) rfl⟩

/-- C5: a short read anywhere in a frame record — in the 4-byte size, the
8-byte timestamp, or the declared-size payload (`incompleteTail` covers
exactly these three cases) — ends the sequence instead of raising an error:
the container yields all fully-present preceding frames and silently omits
the incomplete trailing record. -/
theorem C5_truncated_tail_ends_sequence (r : Reader) (ivf : Ivf)
    (fs : List FrameRec) (t : List Nat) (_hok : Ivf.new r = .ok ivf)
    (hwf : ∀ f ∈ fs, f.wf) (ht : incompleteTail t)
    (hbytes : ivf.reader.bytes = encodeRecords fs ++ t) :
    (ivf.iter).frames = fs.map FrameRec.toFrame := by
  have hreader : ivf.reader = ⟨encodeRecords fs ++ t⟩ := congrArg Reader.mk hbytes
  have h0 : ivf.iter =
      ⟨⟨encodeRecords fs ++ t⟩, List.replicate 4 0, List.replicate 8 0,
        ivf.frame_count⟩ := by
    unfold Ivf.iter
    rw [hreader]
  rw [h0]
  exact frames_encode fs t hwf ht _ _ _

/-- Witness for C5: two complete records followed by a record declaring a
5-byte payload of which only 2 bytes are present. -/
theorem C5_truncated_tail_ends_sequence_witness :
    Ivf.new ⟨exampleHeader ++ (encodeRecords wRecs ++ wTail)⟩ = .ok wIvf2 ∧
    (∀ f ∈ wRecs, f.wf) ∧
    incompleteTail wTail ∧
    wIvf2.reader.bytes = encodeRecords wRecs ++ wTail ∧
    (wIvf2.iter).frames = wRecs.map FrameRec.toFrame :=
  ⟨rfl, by decide, by decide, rfl,
   C5_truncated_tail_ends_sequence ⟨exampleHeader ++ (encodeRecords wRecs ++ wTail)⟩
     wIvf2 wRecs wTail rfl (by decide) (by decide) rfl⟩

/-- C6: under any sequence of operations — creating sequences with `iter` and
consuming them with `next` — the container itself never changes, and every
sequence created from it reproduces the container's full frame list from the
first frame: what it has emitted so far followed by what it will still emit
is always that same list, regardless of how the other sequences were
consumed. -/
theorem C6_sequences_independent (ivf : Ivf) (ops : List ContainerOp) :
    (Sys.run ⟨ivf, []⟩ ops).ivf = ivf ∧
    ∀ st ∈ (Sys.run ⟨ivf, []⟩ ops).iters,
      st.emitted ++ st.it.frames = (ivf.iter).frames :=
  run_preserves ivf ops ⟨ivf, []⟩ rfl
    (fun st hst => absurd hst (List.not_mem_nil st))

/-- Witness for C6: create a sequence and consume one item; the sequence's
emitted-plus-remaining frames equal the container's full frame list. -/
theorem C6_sequences_independent_witness :
    (Sys.run ⟨wIvf, []⟩ wOps).ivf = wIvf ∧
    wSt ∈ (Sys.run ⟨wIvf, []⟩ wOps).iters ∧
    wSt.emitted ++ wSt.it.frames = (wIvf.iter).frames :=
  ⟨(C6_sequences_independent wIvf wOps).1, by decide,
   (C6_sequences_independent wIvf wOps).2 wSt (by decide)⟩

/-- C7: `size_hint` is `(0, Some c)` with `c` the declared frame count
captured when the sequence was created, and the hint never constrains the
frames emitted: the frame list depends only on the reader's bytes, not on the
captured count. -/
theorem C7_size_hint_advisory :
    (∀ ivf : Ivf, (ivf.iter).size_hint = (0, some (ivf.frame_count))) ∧
    (∀ a b : IvfIter, a.reader = b.reader → a.frames = b.frames) :=
  ⟨fun _ => rfl, frames_reader_eq⟩

/-- Witness for C7: two iterators over the same bytes whose captured frame
counts differ wildly still yield identical frames. -/
theorem C7_size_hint_advisory_witness :
    (wIvf.iter).size_hint = (0, some (wIvf.frame_count)) ∧
    wItA.reader = wItB.reader ∧
    wItA.frames = wItB.frames :=
  ⟨C7_size_hint_advisory.1 wIvf, rfl, C7_size_hint_advisory.2 wItA wItB rfl⟩

/-- C8: after construction the container is immutable — no sequence of
accessor calls, `iter` calls or sequence consumptions changes it — and its
retained reader stays at the first byte after the 32-byte header: opening
`d ++ rest` with a 32-byte `d` leaves the reader exactly at `rest`. Only the
clones handed to sequences advance. -/
theorem C8_container_immutable :
    (∀ (ivf : Ivf) (ops : List ContainerOp), (Sys.run ⟨ivf, []⟩ ops).ivf = ivf) ∧
    (∀ (d rest : List Nat) (ivf : Ivf), d.length = 32 →
      Ivf.new ⟨d ++ rest⟩ = .ok ivf → ivf.reader = ⟨rest⟩) := by
  constructor
  · intro ivf ops
    exact (run_preserves ivf ops ⟨ivf, []⟩ rfl
      (fun st hst => absurd hst (List.not_mem_nil st))).1
  · intro d rest ivf hd hok
    rw [new_append d rest hd] at hok
    unfold Ivf.checkHeader at hok
    split at hok
    · exact absurd hok (by simp)
    · split at hok
      · exact absurd hok (by simp)
      · split at hok
        · exact absurd hok (by simp)
        · split at hok
          · exact absurd hok (by simp)
          · injection hok with h
            rw [← h]

/-- Witness for C8: run the script on the concrete container, and open the
example header before concrete frame bytes. -/
theorem C8_container_immutable_witness :
    (Sys.run ⟨wIvf, []⟩ wOps).ivf = wIvf ∧
    exampleHeader.length = 32 ∧
    Ivf.new ⟨exampleHeader ++ encodeRecords wRecs⟩ = .ok wIvf ∧
    wIvf.reader = ⟨encodeRecords wRecs⟩ :=
  ⟨C8_container_immutable.1 wIvf wOps, by decide, rfl,
   C8_container_immutable.2 exampleHeader (encodeRecords wRecs) wIvf
     (by decide) rfl⟩

/-- C9: exhaustion is terminal — once a demand for the next item signals
end-of-sequence, every later demand does too, and no further frame is ever
emitted. -/
theorem C9_exhausted_terminal (it : IvfIter) (h : (it.next).1 = none)
    (n : Nat) : ((IvfIter.stepN n ((it.next).2)).next).1 = none := by
  have hb : ((it.next).2).reader.bytes = [] := next_none_bytes it h
  rw [stepN_nil n _ hb]
  exact next_fst_nil _ hb

/-- Witness for C9: an iterator whose source holds 2 bytes fails its first
demand and every demand after that. -/
theorem C9_exhausted_terminal_witness :
    ((⟨⟨[1, 2]⟩, List.replicate 4 0, List.replicate 8 0, 7⟩ : IvfIter).next).1
      = none ∧
    ((IvfIter.stepN 3
      (((⟨⟨[1, 2]⟩, List.replicate 4 0, List.replicate 8 0, 7⟩ : IvfIter).next).2)).next).1
      = none :=
  ⟨by decide,
   C9_exhausted_terminal ⟨⟨[1, 2]⟩, List.replicate 4 0, List.replicate 8 0, 7⟩
     (by decide) 3⟩

/-- C10: a record whose 4-byte size field decodes to 0 with its 8-byte
timestamp fully present yields a frame with that timestamp and an empty
payload, and the sequence continues with the following records rather than
ending. -/
theorem C10_zero_size_record (sb tb : List Nat) (c : Nat) (ts : Nat)
    (fs : List FrameRec) (t : List Nat) (hts : ts < 256 ^ 8)
    (hwf : ∀ f ∈ fs, f.wf) (ht : incompleteTail t) :
    IvfIter.next
        ⟨⟨(leBytes 4 0 ++ leBytes 8 ts) ++ (encodeRecords fs ++ t)⟩, sb, tb, c⟩ =
      (some ⟨ts, []⟩, ⟨⟨encodeRecords fs ++ t⟩, leBytes 4 0, leBytes 8 ts, c⟩) ∧
    IvfIter.frames
        ⟨⟨(leBytes 4 0 ++ leBytes 8 ts) ++ (encodeRecords fs ++ t)⟩, sb, tb, c⟩ =
      ⟨ts, []⟩ :: fs.map FrameRec.toFrame := by
  have hzf : (⟨ts, []⟩ : FrameRec).wf := by
    constructor
    · show ([] : List Nat).length < 256 ^ 4
      decide
    · exact hts
  constructor
  · have e : (leBytes 4 0 ++ leBytes 8 ts) ++ (encodeRecords fs ++ t) =
        encodeRecord ⟨ts, []⟩ ++ (encodeRecords fs ++ t) := by
      simp [encodeRecord]
    rw [e, next_encode ⟨ts, []⟩ hzf _ sb tb c]
    rfl
  · have e2 : (leBytes 4 0 ++ leBytes 8 ts) ++ (encodeRecords fs ++ t) =
        encodeRecords (⟨ts, []⟩ :: fs) ++ t := by
      simp [encodeRecords, encodeRecord]
    rw [e2]
    have hall : ∀ g ∈ (⟨ts, []⟩ :: fs : List FrameRec), g.wf := by
      intro g hg
      rcases List.mem_cons.mp hg with hg | hg
      · subst hg
        exact hzf
      · exact hwf g hg
    have := frames_encode (⟨ts, []⟩ :: fs) t hall ht sb tb c
    simpa [FrameRec.toFrame] using this

/-- Witness for C10: a zero-size record with timestamp 7, followed by the
two `wRecs` records and nothing else. -/
theorem C10_zero_size_record_witness :
    (7 : Nat) < 256 ^ 8 ∧
    (∀ f ∈ wRecs, f.wf) ∧
    incompleteTail [] ∧
    (IvfIter.next
        ⟨⟨(leBytes 4 0 ++ leBytes 8 7) ++ (encodeRecords wRecs ++ [])⟩, [], [], 5⟩ =
      (some ⟨7, []⟩, ⟨⟨encodeRecords wRecs ++ []⟩, leBytes 4 0, leBytes 8 7, 5⟩) ∧
    IvfIter.frames
        ⟨⟨(leBytes 4 0 ++ leBytes 8 7) ++ (encodeRecords wRecs ++ [])⟩, [], [], 5⟩ =
      ⟨7, []⟩ :: wRecs.map FrameRec.toFrame) :=
  ⟨by decide, by decide, by decide,
   C10_zero_size_record [] [] 5 7 wRecs [] (by decide) (by decide) (by decide)⟩

end Vp9
